import Mathlib

/-!
Verification of the deterministic partitioning engine of `iris_module.py`.

The development shallowly embeds `DataProcessor.train_test_split` and
`DataProcessor.disp_label_cardinality`.  Python floats are modelled exactly as
the rationals representable with a 53-bit significand, with round-to-nearest,
ties-to-even rounding (`rnd`); overflow and subnormal underflow are outside the
range of every value manipulated here and are not modelled.  The process-wide
state of Python's `random` module is modelled as an abstract deterministic
state machine (`RandState`): `random.seed` puts the generator in a state that
is a function of the seed alone, and each bounded draw of the Fisher-Yates
shuffle returns a value below its bound and advances the state.  The theorems
about the shuffle depend only on those two facts, never on the particular
values drawn, so the stand-in for the Mersenne Twister keeps every statement
faithful.
-/

namespace IrisModule

set_option maxRecDepth 20000

set_option synthInstance.maxSize 1024

deriving instance DecidableEq for Except

/-- Floor of log base 2 of `n`, computed by structural recursion on a fuel
argument so that the kernel can evaluate it; `log2Aux f n` is correct whenever
`n ≤ f`. -/
def log2Aux : ℕ → ℕ → ℕ
  | 0, _ => 0
  | f+1, n => if n < 2 then 0 else log2Aux f (n / 2) + 1

/-- Smallest `k` with `b ≤ a * 2^k`, computed by structural recursion on a
fuel argument; `upAux f a b` is correct whenever `b ≤ a * 2^f`. -/
def upAux : ℕ → ℕ → ℕ → ℕ
  | 0, _, _ => 0
  | f+1, a, b => if b ≤ a then 0 else upAux f (2*a) b + 1

/-- The rational `2^k` for an integer exponent `k`, built with kernel-friendly
natural-number powers. -/
def pow2 : ℤ → ℚ
  | Int.ofNat n => mkRat (Int.ofNat (2^n)) 1
  | Int.negSucc n => mkRat 1 (2^(n+1))

/-- Binade exponent of a nonzero rational: the unique `e` with
`2^e ≤ |q| < 2^(e+1)`. -/
def fexp (q : ℚ) : ℤ :=
  if q.num.natAbs < q.den then -(upAux q.den q.num.natAbs q.den : ℤ)
  else (log2Aux q.num.natAbs (q.num.natAbs / q.den) : ℤ)

/-- Exact rational product, written with `mkRat` so the kernel can reduce it
(the library's `Rat.mul` is sealed against unfolding). -/
def qMul (a b : ℚ) : ℚ := mkRat (a.num * b.num) (a.den * b.den)

/-- Exact rational sum, written with `mkRat` so the kernel can reduce it. -/
def qAdd (a b : ℚ) : ℚ := mkRat (a.num * b.den + b.num * a.den) (a.den * b.den)

/-- Floor of a rational, via integer division of numerator by denominator. -/
def qFloor (q : ℚ) : ℤ := q.num / q.den

/-- Round half to even of a rational to an integer, the rounding used both by
IEEE-754 binary64 arithmetic and by Python's builtin `round`.  The conditions
compare `2 * (q - ⌊q⌋)` with `1` after clearing denominators, so only integer
arithmetic is involved. -/
def rhe (q : ℚ) : ℤ :=
  if 2 * (q.num - qFloor q * q.den) < (q.den : ℤ) then qFloor q
  else if ((q.den : ℤ)) < 2 * (q.num - qFloor q * q.den) then qFloor q + 1
  else if qFloor q % 2 = 0 then qFloor q else qFloor q + 1

/-- Rounding of an exact rational to the nearest IEEE-754 binary64 value
(53-bit significand, round-to-nearest, ties to even; exponent range is not
restricted, which is exact for the magnitudes arising in this module).  Every
Python float literal and every float arithmetic result in the source is the
`rnd` of the exact rational value. -/
def rnd (q : ℚ) : ℚ :=
  if q = 0 then 0
  else qMul (mkRat (rhe (qMul q (pow2 (52 - fexp q)))) 1) (pow2 (fexp q - 52))

/-- Python float addition: exact sum, rounded to binary64. -/
def fpAdd (a b : ℚ) : ℚ := rnd (qAdd a b)

/-- Python float multiplication: exact product, rounded to binary64. -/
def fpMul (a b : ℚ) : ℚ := rnd (qMul a b)

/-- Conversion of a Python int to a Python float (rounds to binary64). -/
def pyFloat (n : ℕ) : ℚ := rnd (mkRat (Int.ofNat n) 1)

/-- Python's builtin `round` on a float: nearest integer, ties to even. -/
def pyRound (q : ℚ) : ℤ := rhe q

/-- The cut `round(train_size * len(y))` from line 151 of the source. -/
def trainCut (trainSz : ℚ) (n : ℕ) : ℤ := pyRound (fpMul trainSz (pyFloat n))

/-- The cut `round((train_size + val_size) * len(y))` from line 152 of the
source. -/
def valCut (trainSz valSz : ℚ) (n : ℕ) : ℤ :=
  pyRound (fpMul (fpAdd trainSz valSz) (pyFloat n))

/-- State of the process-wide generator of Python's `random` module.  The
Mersenne Twister internals are abstracted to a deterministic state machine;
the theorems below depend only on determinism and on draws being below their
bound, not on the concrete values. -/
abbrev RandState := ℕ

/-- Model of `random.seed(k)`: the resulting generator state is a function of
the seed alone, independent of the previous state. -/
def seedState (k : ℕ) : RandState := k % 2147483648

/-- One advance of the abstract generator state (stands in for the draw of the
Mersenne Twister; the concrete recurrence is irrelevant to every theorem). -/
def stepState (g : RandState) : RandState := (1103515245 * g + 12345) % 2147483648

/-- Model of `random._randbelow(n)`: returns a value `< n` and the advanced
generator state. -/
def randbelow (g : RandState) (n : ℕ) : ℕ × RandState := (g % n, stepState g)

/-- Exchange of the entries at positions `i` and `j` of a list (identity when
either index is out of range; the shuffle only ever uses it in range). -/
def listSwap (l : List α) (i j : ℕ) : List α :=
  match l[i]?, l[j]? with
  | some a, some b => (l.set i b).set j a
  | _, _ => l

/-- The loop of CPython's `random.shuffle`: for `i` from `k` down to `1`,
draw `j = _randbelow(i+1)` and swap positions `i` and `j`. -/
def fyAux : ℕ → List α → RandState → List α × RandState
  | 0, l, g => (l, g)
  | i+1, l, g =>
    let d := randbelow g (i+2)
    fyAux i (listSwap l (i+1) d.1) d.2

/-- Model of `random.shuffle(x)`: Fisher-Yates from index `len x - 1` down to
`1`, threading the generator state. -/
def pyShuffle (l : List α) (g : RandState) : List α × RandState :=
  fyAux (l.length - 1) l g

/-- The generator state advanced `n` times. -/
def stepN : ℕ → RandState → RandState
  | 0, g => g
  | i+1, g => stepN i (stepState g)

/-- Effective index of the Python slice bound `i` for a sequence of length
`n`: negative bounds count from the end, and bounds are clamped to `[0, n]`. -/
def pyIdx (n : ℕ) (i : ℤ) : ℕ := if i < 0 then n - (-i).toNat else min i.toNat n

/-- Python slice `l[a:b]`. -/
def pySlice (l : List α) (a b : ℤ) : List α :=
  (l.take (pyIdx l.length b)).drop (pyIdx l.length a)

/-- Message of the `ValueError` raised on line 142 of the source. -/
def sumMsg : String := "Wartości train_size, val_size i test_size muszą się sumować do 1!"

/-- Message of the `ValueError` raised by `X, y = zip(*combined_data)` on
line 148 when the zipped list is empty. -/
def unpackMsg : String := "not enough values to unpack (expected 2, got 0)"

/-- Lines 150-158 of the source, applied to the already shuffled list of
(feature, label) pairs: unpack, compute the two cuts, and slice. -/
def splitCore (L : List (α × β)) (trainSz valSz : ℚ) :
    List α × List α × List α × List β × List β × List β :=
  let Xs := L.map Prod.fst
  let ys := L.map Prod.snd
  let ti := trainCut trainSz ys.length
  let vi := valCut trainSz valSz ys.length
  (pySlice Xs 0 ti, pySlice Xs ti vi, pySlice Xs vi (Xs.length : ℤ),
   pySlice ys 0 ti, pySlice ys ti vi, pySlice ys vi (ys.length : ℤ))

/-- Embedding of `DataProcessor.train_test_split` (lines 125-158 of the
source).  The ratios are the exact rational values of the Python floats passed
in; `g` is the state of the process-wide generator before the call, and the
second component of the result is its state after the call.  Python's
`X, y = zip(*combined_data)` fails on an empty list, which the embedding
renders as the corresponding error. -/
def trainTestSplit (X : List α) (y : List β) (trainSz valSz testSz : ℚ)
    (g : RandState) :
    Except String (List α × List α × List α × List β × List β × List β) × RandState :=
  if fpAdd (fpAdd trainSz valSz) testSz ≠ 1 then (Except.error sumMsg, g)
  else
    let sh := pyShuffle (X.zip y) (seedState 42)
    if sh.1.isEmpty then (Except.error unpackMsg, sh.2)
    else (Except.ok (splitCore sh.1 trainSz valSz), sh.2)

/-- Sizes (number of observations) of the three feature subsets of a split
result. -/
def splitSizes (r : List α × List α × List α × List β × List β × List β) :
    ℕ × ℕ × ℕ :=
  (r.1.length, r.2.1.length, r.2.2.1.length)

/-- Total number of observations over the three feature subsets. -/
def splitTotal (r : List α × List α × List α × List β × List β × List β) : ℕ :=
  r.1.length + r.2.1.length + r.2.2.1.length

/-- Model of Python's `list(set(y))`: each distinct label exactly once.
CPython's set iteration order is hash-dependent; it is modelled as order of
first occurrence, which no theorem below depends on. -/
def pyUniqueLabels [DecidableEq β] (y : List β) : List β := y.dedup

/-- Embedding of `DataProcessor.disp_label_cardinality` (lines 160-174): the
sequence of `(label, cardinality)` pairs printed by
`[print((label, cardinality)) for cardinality, label in enumerate(unique_labels)]`,
which pairs each distinct label with its position in the enumeration. -/
def dispLabelCardinality [DecidableEq β] (y : List β) : List (β × ℕ) :=
  (pyUniqueLabels y).enum.map (fun p => (p.2, p.1))

/-- Number of occurrences reported for each label by the label summary,
summed. -/
def reportedTotal [DecidableEq β] (y : List β) : ℕ :=
  ((dispLabelCardinality y).map Prod.snd).sum

theorem qAdd_eq (a b : ℚ) : qAdd a b = a + b := by
  rw [qAdd, Rat.mkRat_eq_divInt, ← Rat.num_divInt_den a, ← Rat.num_divInt_den b,
    Rat.divInt_add_divInt _ _ (by exact_mod_cast a.den_nz) (by exact_mod_cast b.den_nz)]
  push_cast
  rw [Rat.num_divInt_den a, Rat.num_divInt_den b]

theorem qMul_eq (a b : ℚ) : qMul a b = a * b := by
  rw [qMul, Rat.mkRat_eq_divInt, ← Rat.num_divInt_den a, ← Rat.num_divInt_den b,
    Rat.divInt_mul_divInt']
  push_cast
  rw [Rat.num_divInt_den a, Rat.num_divInt_den b]

theorem qFloor_eq (q : ℚ) : qFloor q = ⌊q⌋ := Rat.floor_def.symm

theorem pow2_eq (k : ℤ) : pow2 k = (2 : ℚ)^k := by
  cases k with
  | ofNat n =>
    rw [pow2, Rat.mkRat_one, show Int.ofNat n = (n : ℤ) from rfl, zpow_natCast,
      show Int.ofNat (2^n) = ((2^n : ℕ) : ℤ) from rfl]
    push_cast
    ring
  | negSucc n =>
    rw [pow2, zpow_negSucc, Rat.mkRat_eq_divInt, Rat.divInt_eq_div]
    push_cast
    rw [one_div]

theorem pow2_pos (k : ℤ) : 0 < pow2 k := by
  rw [pow2_eq]
  positivity

/-- The denominator as a rational is positive. -/
theorem den_posQ (q : ℚ) : (0 : ℚ) < (q.den : ℚ) := by
  exact_mod_cast q.pos

/-- The numerator of a rational is the rational times its denominator. -/
theorem num_eq_mul_den (q : ℚ) : (q.num : ℚ) = q * (q.den : ℚ) := by
  have h := Rat.num_div_den q
  have hd : ((q.den : ℚ)) ≠ 0 := ne_of_gt (den_posQ q)
  calc (q.num : ℚ) = ((q.num : ℚ) / (q.den : ℚ)) * (q.den : ℚ) := by
        rw [div_mul_cancel₀ _ hd]
    _ = q * (q.den : ℚ) := by rw [h]

/-- Bridge between the integer-arithmetic branch condition of `rhe` and the
fractional part being below one half. -/
theorem rhe_cond_lt (q : ℚ) :
    2 * (q.num - ⌊q⌋ * q.den) < (q.den : ℤ) ↔ q - ⌊q⌋ < 1/2 := by
  have hden : (0 : ℚ) < (q.den : ℚ) := den_posQ q
  have hq := num_eq_mul_den q
  rw [show (q - ⌊q⌋ < 1/2) ↔ 2 * (q * q.den - ⌊q⌋ * q.den) < (q.den : ℚ) by
    rw [← sub_mul]
    constructor
    · intro h
      nlinarith
    · intro h
      nlinarith]
  rw [← hq]
  constructor
  · intro h
    exact_mod_cast h
  · intro h
    exact_mod_cast h

/-- Bridge between the integer-arithmetic branch condition of `rhe` and the
fractional part being above one half. -/
theorem rhe_cond_gt (q : ℚ) :
    (q.den : ℤ) < 2 * (q.num - ⌊q⌋ * q.den) ↔ (1:ℚ)/2 < q - ⌊q⌋ := by
  have hden : (0 : ℚ) < (q.den : ℚ) := den_posQ q
  have hq := num_eq_mul_den q
  rw [show ((1:ℚ)/2 < q - ⌊q⌋) ↔ (q.den : ℚ) < 2 * (q * q.den - ⌊q⌋ * q.den) by
    rw [← sub_mul]
    constructor
    · intro h
      nlinarith
    · intro h
      nlinarith]
  rw [← hq]
  constructor
  · intro h
    exact_mod_cast h
  · intro h
    exact_mod_cast h

/-- The rounding `rhe` in terms of the floor and the fractional part. -/
theorem rhe_eq (q : ℚ) :
    rhe q = if q - ⌊q⌋ < 1/2 then ⌊q⌋
      else if (1:ℚ)/2 < q - ⌊q⌋ then ⌊q⌋ + 1
      else if ⌊q⌋ % 2 = 0 then ⌊q⌋ else ⌊q⌋ + 1 := by
  unfold rhe
  simp only [qFloor_eq, rhe_cond_lt q, rhe_cond_gt q]

theorem rhe_intCast (k : ℤ) : rhe (k : ℚ) = k := by
  rw [rhe_eq, Int.floor_intCast]
  simp

theorem floor_le_rhe (q : ℚ) : ⌊q⌋ ≤ rhe q := by
  rw [rhe_eq]
  split_ifs <;> omega

theorem rhe_le_floor_add_one (q : ℚ) : rhe q ≤ ⌊q⌋ + 1 := by
  rw [rhe_eq]
  split_ifs <;> omega

theorem rhe_mono {a b : ℚ} (h : a ≤ b) : rhe a ≤ rhe b := by
  have hf : ⌊a⌋ ≤ ⌊b⌋ := Int.floor_le_floor h
  rcases lt_or_eq_of_le hf with hlt | heq
  · calc rhe a ≤ ⌊a⌋ + 1 := rhe_le_floor_add_one a
      _ ≤ ⌊b⌋ := by omega
      _ ≤ rhe b := floor_le_rhe b
  · rw [rhe_eq, rhe_eq, ← heq]
    have hab : a - ⌊a⌋ ≤ b - ⌊a⌋ := by linarith
    split_ifs with p1 p2 p3 p4 p5 p6 p7 <;> try omega
    all_goals (exfalso; rw [← heq] at *; linarith)

theorem rhe_nonneg {q : ℚ} (h : 0 ≤ q) : 0 ≤ rhe q := by
  have := rhe_mono (show ((0:ℤ) : ℚ) ≤ q by exact_mod_cast h)
  rwa [rhe_intCast] at this

/-- Lower bound: `rhe` moves a rational by at most one half. -/
theorem rhe_ge_sub_half (q : ℚ) : q - 1/2 ≤ (rhe q : ℚ) := by
  rw [rhe_eq]
  have h1 := Int.lt_floor_add_one q
  have h2 := Int.floor_le q
  split_ifs <;> push_cast <;> linarith

/-- Upper bound: `rhe` moves a rational by at most one half. -/
theorem rhe_le_add_half (q : ℚ) : (rhe q : ℚ) ≤ q + 1/2 := by
  rw [rhe_eq]
  have h1 := Int.lt_floor_add_one q
  have h2 := Int.floor_le q
  split_ifs <;> push_cast <;> linarith

theorem log2Aux_spec :
    ∀ f n, 0 < n → n ≤ f → 2^(log2Aux f n) ≤ n ∧ n < 2^(log2Aux f n + 1) := by
  intro f
  induction f with
  | zero => intro n hn hf; omega
  | succ f ih =>
    intro n hn hf
    by_cases h2 : n < 2
    · have hn1 : n = 1 := by omega
      simp [log2Aux, h2, hn1]
    · have hrec := ih (n / 2) (by omega) (by omega)
      rw [log2Aux, if_neg (by omega)]
      have hmod := Nat.div_add_mod n 2
      constructor
      · calc 2^(log2Aux f (n / 2) + 1) = 2 * 2^(log2Aux f (n / 2)) := by ring
          _ ≤ 2 * (n / 2) := by omega
          _ ≤ n := by omega
      · have : n / 2 < 2^(log2Aux f (n / 2) + 1) := hrec.2
        calc n = 2 * (n / 2) + n % 2 := by omega
          _ < 2 * 2^(log2Aux f (n / 2) + 1) := by omega
          _ = 2^(log2Aux f (n / 2) + 1 + 1) := by ring

theorem upAux_spec :
    ∀ f a b, 0 < a → b ≤ a * 2^f →
      b ≤ a * 2^(upAux f a b) ∧ (upAux f a b = 0 ∨ a * 2^(upAux f a b - 1) < b) := by
  intro f
  induction f with
  | zero =>
    intro a b ha hf
    simp only [pow_zero, mul_one] at hf
    simp [upAux, hf]
  | succ f ih =>
    intro a b ha hf
    by_cases hba : b ≤ a
    · simp [upAux, hba]
    · have hrec := ih (2*a) b (by omega) (by calc b ≤ a * 2^(f+1) := hf
        _ = 2*a * 2^f := by ring)
      rw [upAux, if_neg hba]
      refine ⟨by calc b ≤ 2*a * 2^(upAux f (2*a) b) := hrec.1
        _ = a * 2^(upAux f (2*a) b + 1) := by ring, Or.inr ?_⟩
      rcases hrec.2 with h0 | hlt
      · rw [h0]
        simp
        omega
      · set u := upAux f (2*a) b with hu
        by_cases hu0 : u = 0
        · rw [hu0]
          simp
          omega
        · obtain ⟨w, hw⟩ : ∃ w, u = w + 1 := ⟨u - 1, by omega⟩
          calc a * 2^(u + 1 - 1) = a * 2^u := by rw [Nat.add_sub_cancel]
            _ = 2*a * 2^w := by rw [hw]; ring
            _ < b := by
                rw [hw] at hlt
                simpa [Nat.add_sub_cancel] using hlt

/-- A positive rational equals the quotient of its numerator's absolute value
by its denominator, both as naturals. -/
theorem pos_eq_natAbs_div (q : ℚ) (hq : 0 < q) :
    q = ((q.num.natAbs : ℚ)) / ((q.den : ℚ)) := by
  have hnum : (0:ℤ) < q.num := Rat.num_pos.2 hq
  have h : ((q.num.natAbs : ℤ)) = q.num := Int.natAbs_of_nonneg (le_of_lt hnum)
  rw [show ((q.num.natAbs : ℚ)) = ((q.num : ℤ) : ℚ) by
    rw [Int.cast_natAbs]
    exact congrArg (fun z : ℤ => (z : ℚ)) (abs_of_nonneg (le_of_lt hnum))]
  exact (Rat.num_div_den q).symm

theorem fexp_spec (q : ℚ) (hq : 0 < q) :
    (2:ℚ)^(fexp q) ≤ q ∧ q < (2:ℚ)^(fexp q + 1) := by
  set a := q.num.natAbs with ha
  set b := q.den with hb
  have hb0 : 0 < b := q.pos
  have ha0 : 0 < a := by
    have hnum : (0:ℤ) < q.num := Rat.num_pos.2 hq
    simp only [ha]
    omega
  have hqab : q = ((a : ℚ)) / ((b : ℚ)) := pos_eq_natAbs_div q hq
  have hbQ : (0:ℚ) < (b:ℚ) := by exact_mod_cast hb0
  by_cases hab : a < b
  · -- q < 1 : negative binade exponent
    have hfa : fexp q = -(upAux b a b : ℤ) := by
      rw [fexp, if_pos (by exact hab)]
    set k := upAux b a b with hk
    have hfuel : b ≤ a * 2^b := by
      calc b ≤ 2^b := le_of_lt (Nat.lt_two_pow b)
        _ ≤ a * 2^b := Nat.le_mul_of_pos_left _ ha0
    have hspec := upAux_spec b a b ha0 hfuel
    have hk0 : k ≠ 0 := by
      intro h0
      rw [← hk, h0] at hspec
      simp at hspec
      omega
    have hup : a * 2^(k-1) < b := by
      rcases hspec.2 with h | h
      · exact absurd h hk0
      · exact h
    have hlow : b ≤ a * 2^k := hspec.1
    have hp1 : (0:ℚ) < (2:ℚ)^k := by positivity
    constructor
    · rw [hfa, zpow_neg, zpow_natCast, ← one_div, hqab,
        div_le_div_iff hp1 hbQ, one_mul]
      calc (b:ℚ) ≤ ((a * 2^k : ℕ) : ℚ) := by exact_mod_cast hlow
        _ = (a:ℚ) * 2^k := by push_cast; ring
    · rw [hfa, hqab]
      have hk1 : 1 ≤ k := by omega
      have hke : -(k:ℤ) + 1 = -(((k - 1 : ℕ)) : ℤ) := by omega
      rw [hke, zpow_neg, zpow_natCast, ← one_div,
        div_lt_div_iff hbQ (by positivity)]
      calc (a:ℚ) * 2^(k-1) = ((a * 2^(k-1) : ℕ) : ℚ) := by push_cast; ring
        _ < (b:ℚ) := by exact_mod_cast hup
        _ = 1 * (b:ℚ) := by ring
  · -- 1 ≤ q : nonnegative binade exponent
    have hba : b ≤ a := by omega
    have hfa : fexp q = ((log2Aux a (a / b) : ℕ) : ℤ) := by
      rw [fexp, if_neg (by omega)]
    set e := log2Aux a (a / b) with he
    have hspec := log2Aux_spec a (a / b) (Nat.div_pos hba hb0) (Nat.div_le_self a b)
    have hlow : 2^e * b ≤ a := (Nat.le_div_iff_mul_le hb0).1 hspec.1
    have hup : a < b * 2^(e+1) := by
      have hmod := Nat.div_add_mod a b
      have hmlt : a % b < b := Nat.mod_lt a hb0
      have h1 : a < b * (a/b) + b := by omega
      have h3 : b * (a/b) + b = b * (a/b + 1) := by ring
      have h4 : b * (a/b + 1) ≤ b * 2^(e+1) := Nat.mul_le_mul_left b hspec.2
      omega
    constructor
    · rw [hfa, zpow_natCast, hqab, le_div_iff hbQ]
      calc (2:ℚ)^e * b = ((2^e * b : ℕ) : ℚ) := by push_cast; ring
        _ ≤ (a:ℚ) := by exact_mod_cast hlow
    · rw [hfa, hqab, div_lt_iff hbQ]
      have hke : ((e:ℕ) : ℤ) + 1 = (((e + 1 : ℕ)) : ℤ) := by omega
      rw [hke, zpow_natCast]
      calc (a:ℚ) < ((b * 2^(e+1) : ℕ) : ℚ) := by exact_mod_cast hup
        _ = (2:ℚ)^(e+1) * b := by push_cast; ring

theorem fexp_unique (q : ℚ) (hq : 0 < q) (k : ℤ) (h1 : (2:ℚ)^k ≤ q)
    (h2 : q < (2:ℚ)^(k+1)) : fexp q = k := by
  have hs := fexp_spec q hq
  by_contra hne
  rcases lt_or_gt_of_ne hne with hlt | hgt
  · have hle : (2:ℚ)^(fexp q + 1) ≤ (2:ℚ)^k := zpow_le_zpow_right₀ one_le_two (by omega)
    linarith [hs.2]
  · have hle : (2:ℚ)^(k+1) ≤ (2:ℚ)^(fexp q) := zpow_le_zpow_right₀ one_le_two (by omega)
    linarith [hs.1]

theorem fexp_mono {a b : ℚ} (ha : 0 < a) (hab : a ≤ b) : fexp a ≤ fexp b := by
  have hb : 0 < b := lt_of_lt_of_le ha hab
  have hsa := fexp_spec a ha
  have hsb := fexp_spec b hb
  by_contra h
  push_neg at h
  have hle : (2:ℚ)^(fexp b + 1) ≤ (2:ℚ)^(fexp a) := zpow_le_zpow_right₀ one_le_two (by omega)
  linarith [hsa.1, hsb.2]

theorem rnd_eq (q : ℚ) :
    rnd q = if q = 0 then 0
      else ((rhe (q * (2:ℚ)^((52 : ℤ) - fexp q)) : ℤ) : ℚ) * (2:ℚ)^(fexp q - 52) := by
  unfold rnd
  simp only [qMul_eq, pow2_eq, Rat.mkRat_one]

theorem rnd_zero : rnd 0 = 0 := by
  rw [rnd_eq]
  simp

theorem rnd_nonneg {q : ℚ} (h : 0 ≤ q) : 0 ≤ rnd q := by
  rw [rnd_eq]
  split_ifs with h0
  · exact le_refl 0
  · have hq : 0 < q := lt_of_le_of_ne h (Ne.symm h0)
    have h1 : 0 ≤ rhe (q * (2:ℚ)^((52:ℤ) - fexp q)) := rhe_nonneg (by positivity)
    exact mul_nonneg (by exact_mod_cast h1) (by positivity)

/-- The significand produced by `rnd` on a positive input is at least `2^52`. -/
theorem rhe_sig_lower {q : ℚ} (hq : 0 < q) :
    (2^52 : ℤ) ≤ rhe (q * (2:ℚ)^((52:ℤ) - fexp q)) := by
  have hs := fexp_spec q hq
  have hy : (2:ℚ)^(52:ℤ) ≤ q * (2:ℚ)^((52:ℤ) - fexp q) := by
    calc (2:ℚ)^(52:ℤ) = 2^(fexp q) * 2^((52:ℤ) - fexp q) := by
          rw [← zpow_add₀ two_ne_zero]
          congr 1
          ring
      _ ≤ q * (2:ℚ)^((52:ℤ) - fexp q) :=
          mul_le_mul_of_nonneg_right hs.1 (by positivity)
  have hb := rhe_ge_sub_half (q * (2:ℚ)^((52:ℤ) - fexp q))
  have h52 : ((2^52 : ℤ) : ℚ) = (2:ℚ)^(52:ℤ) := by norm_num
  have hZ : (2^52 : ℤ) - 1 < rhe (q * (2:ℚ)^((52:ℤ) - fexp q)) := by
    have : ((2^52 : ℤ) : ℚ) - 1 < ((rhe (q * (2:ℚ)^((52:ℤ) - fexp q)) : ℤ) : ℚ) := by
      rw [h52]
      linarith
    exact_mod_cast this
  omega

/-- The significand produced by `rnd` on a positive input is at most `2^53`. -/
theorem rhe_sig_upper {q : ℚ} (hq : 0 < q) :
    rhe (q * (2:ℚ)^((52:ℤ) - fexp q)) ≤ (2^53 : ℤ) := by
  have hs := fexp_spec q hq
  have hy : q * (2:ℚ)^((52:ℤ) - fexp q) < (2:ℚ)^(53:ℤ) := by
    calc q * (2:ℚ)^((52:ℤ) - fexp q)
        < (2:ℚ)^(fexp q + 1) * (2:ℚ)^((52:ℤ) - fexp q) :=
          mul_lt_mul_of_pos_right hs.2 (by positivity)
      _ = (2:ℚ)^(53:ℤ) := by
          rw [← zpow_add₀ two_ne_zero]
          congr 1
          ring
  have hb := rhe_le_add_half (q * (2:ℚ)^((52:ℤ) - fexp q))
  have h53 : ((2^53 : ℤ) : ℚ) = (2:ℚ)^(53:ℤ) := by norm_num
  have hZ : rhe (q * (2:ℚ)^((52:ℤ) - fexp q)) < (2^53 : ℤ) + 1 := by
    have : ((rhe (q * (2:ℚ)^((52:ℤ) - fexp q)) : ℤ) : ℚ) < ((2^53 : ℤ) : ℚ) + 1 := by
      rw [h53]
      linarith
    exact_mod_cast this
  omega

theorem rnd_ge_lower {q : ℚ} (hq : 0 < q) : (2:ℚ)^(fexp q) ≤ rnd q := by
  rw [rnd_eq, if_neg (ne_of_gt hq)]
  have h := rhe_sig_lower hq
  calc (2:ℚ)^(fexp q) = ((2^52 : ℤ) : ℚ) * 2^(fexp q - 52) := by
        rw [show ((2^52 : ℤ) : ℚ) = (2:ℚ)^(52:ℤ) from by norm_num,
          ← zpow_add₀ two_ne_zero]
        congr 1
        ring
    _ ≤ ((rhe (q * (2:ℚ)^((52:ℤ) - fexp q)) : ℤ) : ℚ) * 2^(fexp q - 52) :=
        mul_le_mul_of_nonneg_right (by exact_mod_cast h) (by positivity)

theorem rnd_le_upper {q : ℚ} (hq : 0 < q) : rnd q ≤ (2:ℚ)^(fexp q + 1) := by
  rw [rnd_eq, if_neg (ne_of_gt hq)]
  have h := rhe_sig_upper hq
  calc ((rhe (q * (2:ℚ)^((52:ℤ) - fexp q)) : ℤ) : ℚ) * 2^(fexp q - 52)
      ≤ ((2^53 : ℤ) : ℚ) * 2^(fexp q - 52) :=
        mul_le_mul_of_nonneg_right (by exact_mod_cast h) (by positivity)
    _ = (2:ℚ)^(fexp q + 1) := by
        rw [show ((2^53 : ℤ) : ℚ) = (2:ℚ)^(53:ℤ) from by norm_num,
          ← zpow_add₀ two_ne_zero]
        congr 1
        ring

theorem rnd_mono {a b : ℚ} (h0 : 0 ≤ a) (hab : a ≤ b) : rnd a ≤ rnd b := by
  rcases eq_or_lt_of_le h0 with h0' | ha
  · rw [← h0', rnd_zero]
    exact rnd_nonneg (le_trans h0 hab)
  · have hb : 0 < b := lt_of_lt_of_le ha hab
    have hef : fexp a ≤ fexp b := fexp_mono ha hab
    rcases eq_or_lt_of_le hef with heq | hlt
    · rw [rnd_eq, rnd_eq, if_neg (ne_of_gt ha), if_neg (ne_of_gt hb), ← heq]
      apply mul_le_mul_of_nonneg_right _ (by positivity)
      have harg : a * (2:ℚ)^((52:ℤ) - fexp a) ≤ b * (2:ℚ)^((52:ℤ) - fexp a) :=
        mul_le_mul_of_nonneg_right hab (by positivity)
      exact_mod_cast rhe_mono harg
    · calc rnd a ≤ (2:ℚ)^(fexp a + 1) := rnd_le_upper ha
        _ ≤ (2:ℚ)^(fexp b) := zpow_le_zpow_right₀ one_le_two (by omega)
        _ ≤ rnd b := rnd_ge_lower hb

/-- A positive rational whose scaled significand is an integer is a fixed
point of `rnd`. -/
theorem rnd_eq_self {q : ℚ} (hq : 0 < q) (k : ℤ)
    (hk : (k:ℚ) = q * (2:ℚ)^((52:ℤ) - fexp q)) : rnd q = q := by
  rw [rnd_eq, if_neg (ne_of_gt hq), ← hk, rhe_intCast, hk]
  rw [mul_assoc, ← zpow_add₀ two_ne_zero,
    show ((52:ℤ) - fexp q) + (fexp q - 52) = 0 by ring, zpow_zero, mul_one]

/-- A dyadic rational with a full-width significand is a fixed point of
`rnd`. -/
theorem rnd_dyadic (m e : ℤ) (h1 : (2:ℚ)^(52:ℤ) ≤ (m:ℚ))
    (h2 : (m:ℚ) < (2:ℚ)^(53:ℤ)) :
    rnd ((m:ℚ) * (2:ℚ)^(e - 52)) = (m:ℚ) * (2:ℚ)^(e - 52) := by
  have hm0 : (0:ℚ) < (m:ℚ) := lt_of_lt_of_le (by positivity) h1
  have hx : (0:ℚ) < (m:ℚ) * (2:ℚ)^(e - 52) := by positivity
  have hlow : (2:ℚ)^e ≤ (m:ℚ) * (2:ℚ)^(e - 52) := by
    have h52 : (2:ℚ)^e = (2:ℚ)^(52:ℤ) * (2:ℚ)^(e - 52) := by
      rw [← zpow_add₀ two_ne_zero]
      congr 1
      ring
    rw [h52]
    exact mul_le_mul_of_nonneg_right h1 (by positivity)
  have hup : (m:ℚ) * (2:ℚ)^(e - 52) < (2:ℚ)^(e + 1) := by
    have h53 : (2:ℚ)^(e + 1) = (2:ℚ)^(53:ℤ) * (2:ℚ)^(e - 52) := by
      rw [← zpow_add₀ two_ne_zero]
      congr 1
      ring
    rw [h53]
    exact mul_lt_mul_of_pos_right h2 (by positivity)
  have hfe : fexp ((m:ℚ) * (2:ℚ)^(e - 52)) = e := fexp_unique _ hx e hlow hup
  apply rnd_eq_self hx m
  rw [hfe, mul_assoc, ← zpow_add₀ two_ne_zero,
    show (e - 52) + ((52:ℤ) - e) = 0 by ring, zpow_zero, mul_one]

theorem rnd_idem {q : ℚ} (h0 : 0 ≤ q) : rnd (rnd q) = rnd q := by
  rcases eq_or_lt_of_le h0 with h0' | hq
  · rw [← h0', rnd_zero, rnd_zero]
  · have h1 := rhe_sig_lower hq
    have h2 := rhe_sig_upper hq
    have hrq : rnd q = ((rhe (q * (2:ℚ)^((52:ℤ) - fexp q)) : ℤ) : ℚ) * (2:ℚ)^(fexp q - 52) := by
      rw [rnd_eq, if_neg (ne_of_gt hq)]
    rcases lt_or_eq_of_le h2 with hlt | he
    · rw [hrq]
      exact rnd_dyadic _ (fexp q)
        (by rw [show (2:ℚ)^(52:ℤ) = ((2^52:ℤ):ℚ) from by norm_num]; exact_mod_cast h1)
        (by rw [show (2:ℚ)^(53:ℤ) = ((2^53:ℤ):ℚ) from by norm_num]; exact_mod_cast hlt)
    · rw [hrq, he]
      have hval : ((2^53 : ℤ) : ℚ) * (2:ℚ)^(fexp q - 52)
          = ((2^52 : ℤ) : ℚ) * (2:ℚ)^((fexp q + 1) - 52) := by
        rw [show ((2^53:ℤ):ℚ) = (2:ℚ)^(53:ℤ) from by norm_num,
          show ((2^52:ℤ):ℚ) = (2:ℚ)^(52:ℤ) from by norm_num,
          ← zpow_add₀ two_ne_zero, ← zpow_add₀ two_ne_zero]
        congr 1
        ring
      rw [hval]
      exact rnd_dyadic _ (fexp q + 1)
        (by rw [show (2:ℚ)^(52:ℤ) = ((2^52:ℤ):ℚ) from by norm_num])
        (by rw [show (2:ℚ)^(53:ℤ) = ((2^53:ℤ):ℚ) from by norm_num]; exact_mod_cast by norm_num)

theorem rnd_natCast {n : ℕ} (h : n ≤ 2^53) : rnd ((n:ℕ) : ℚ) = ((n:ℕ) : ℚ) := by
  rcases Nat.eq_zero_or_pos n with h0 | hpos
  · rw [h0]
    simpa using rnd_zero
  · have hq : (0:ℚ) < ((n:ℕ) : ℚ) := by exact_mod_cast hpos
    rcases lt_or_eq_of_le h with hlt | heq
    · set e := fexp ((n:ℕ) : ℚ) with he
      have hs := fexp_spec _ hq
      have he0 : 0 ≤ e := by
        by_contra hc
        push_neg at hc
        have : (2:ℚ)^(e + 1) ≤ (2:ℚ)^(0:ℤ) := zpow_le_zpow_right₀ one_le_two (by omega)
        rw [zpow_zero] at this
        have h1n : (1:ℚ) ≤ ((n:ℕ) : ℚ) := by exact_mod_cast hpos
        linarith [hs.2]
      have he52 : e ≤ 52 := by
        by_contra hc
        push_neg at hc
        have h2e : (2:ℚ)^(53:ℤ) ≤ (2:ℚ)^e := zpow_le_zpow_right₀ one_le_two (by omega)
        have hn53 : ((n:ℕ) : ℚ) < (2:ℚ)^(53:ℤ) := by
          rw [show (2:ℚ)^(53:ℤ) = ((2^53 : ℕ) : ℚ) from by norm_num]
          exact_mod_cast hlt
        linarith [hs.1]
      apply rnd_eq_self hq ((n:ℤ) * 2^((52 - e).toNat))
      push_cast
      rw [← zpow_natCast (2:ℚ) ((52 - e).toNat),
        Int.toNat_of_nonneg (by omega : (0:ℤ) ≤ 52 - e), ← he]
    · rw [show ((n:ℕ) : ℚ) = ((2^52 : ℤ) : ℚ) * (2:ℚ)^((53:ℤ) - 52) by
        rw [heq, show ((2^52:ℤ):ℚ) = (2:ℚ)^(52:ℤ) from by norm_num,
          ← zpow_add₀ two_ne_zero]
        norm_num]
      exact rnd_dyadic _ 53 (by norm_num) (by norm_num)

theorem fpAdd_eq (a b : ℚ) : fpAdd a b = rnd (a + b) := by
  rw [fpAdd, qAdd_eq]

theorem fpMul_eq (a b : ℚ) : fpMul a b = rnd (a * b) := by
  rw [fpMul, qMul_eq]

theorem pyFloat_eq (n : ℕ) : pyFloat n = rnd ((n:ℕ) : ℚ) := by
  rw [pyFloat, Rat.mkRat_one]
  norm_num

theorem pyFloat_nonneg (n : ℕ) : 0 ≤ pyFloat n := by
  rw [pyFloat_eq]
  exact rnd_nonneg (by positivity)

theorem pyFloat_of_le {n : ℕ} (hn : n ≤ 2^53) : pyFloat n = ((n:ℕ) : ℚ) := by
  rw [pyFloat_eq, rnd_natCast hn]

/-- Adding a nonnegative float to a float never decreases it. -/
theorem le_fpAdd {a b : ℚ} (ha : rnd a = a) (h0a : 0 ≤ a) (h0b : 0 ≤ b) :
    a ≤ fpAdd a b := by
  calc a = rnd a := ha.symm
    _ ≤ rnd (a + b) := rnd_mono h0a (by linarith)
    _ = fpAdd a b := (fpAdd_eq a b).symm

theorem fpAdd_nonneg {a b : ℚ} (h0a : 0 ≤ a) (h0b : 0 ≤ b) : 0 ≤ fpAdd a b := by
  rw [fpAdd_eq]
  exact rnd_nonneg (by linarith)

/-- A float sum is idempotent under rounding (it is a float). -/
theorem rnd_fpAdd {a b : ℚ} (h0a : 0 ≤ a) (h0b : 0 ≤ b) :
    rnd (fpAdd a b) = fpAdd a b := by
  rw [fpAdd_eq]
  exact rnd_idem (by linarith)

/-- When the validation of the source accepts the ratios, the partial float
sum of the first two ratios is at most `1`. -/
theorem sum_le_one {t v w : ℚ} (h0t : 0 ≤ t) (h0v : 0 ≤ v) (h0w : 0 ≤ w)
    (hval : fpAdd (fpAdd t v) w = 1) : fpAdd t v ≤ 1 := by
  have h0s : 0 ≤ fpAdd t v := fpAdd_nonneg h0t h0v
  calc fpAdd t v ≤ fpAdd (fpAdd t v) w := le_fpAdd (rnd_fpAdd h0t h0v) h0s h0w
    _ = 1 := hval

theorem trainCut_nonneg {t : ℚ} (h0t : 0 ≤ t) (n : ℕ) : 0 ≤ trainCut t n := by
  rw [trainCut, pyRound, fpMul_eq]
  exact rhe_nonneg (rnd_nonneg (mul_nonneg h0t (pyFloat_nonneg n)))

/-- The train cut never exceeds the validation cut. -/
theorem cut_mono {t v : ℚ} (ht : rnd t = t) (h0t : 0 ≤ t) (h0v : 0 ≤ v) (n : ℕ) :
    trainCut t n ≤ valCut t v n := by
  rw [trainCut, valCut, pyRound, pyRound, fpMul_eq, fpMul_eq]
  apply rhe_mono
  apply rnd_mono (mul_nonneg h0t (pyFloat_nonneg n))
  exact mul_le_mul_of_nonneg_right (le_fpAdd ht h0t h0v) (pyFloat_nonneg n)

/-- For validated ratios and a length representable as a float, the validation
cut never exceeds the length. -/
theorem valCut_le_n {t v w : ℚ} (h0t : 0 ≤ t) (h0v : 0 ≤ v) (h0w : 0 ≤ w)
    (hval : fpAdd (fpAdd t v) w = 1) (n : ℕ) (hn : n ≤ 2^53) :
    valCut t v n ≤ (n : ℤ) := by
  rw [valCut, pyRound, fpMul_eq]
  have h0s : 0 ≤ fpAdd t v := fpAdd_nonneg h0t h0v
  have hs1 : fpAdd t v ≤ 1 := sum_le_one h0t h0v h0w hval
  have harg : fpAdd t v * pyFloat n ≤ ((n:ℕ) : ℚ) := by
    rw [pyFloat_of_le hn]
    calc fpAdd t v * ((n:ℕ) : ℚ) ≤ 1 * ((n:ℕ) : ℚ) :=
        mul_le_mul_of_nonneg_right hs1 (by positivity)
      _ = ((n:ℕ) : ℚ) := one_mul _
  have h2 : rnd (fpAdd t v * pyFloat n) ≤ (((n:ℤ)) : ℚ) := by
    calc rnd (fpAdd t v * pyFloat n) ≤ rnd ((n:ℕ) : ℚ) :=
        rnd_mono (mul_nonneg h0s (pyFloat_nonneg n)) harg
      _ = ((n:ℕ) : ℚ) := rnd_natCast hn
      _ = (((n:ℤ)) : ℚ) := by push_cast; ring
  calc rhe (rnd (fpAdd t v * pyFloat n)) ≤ rhe (((n:ℤ)) : ℚ) := rhe_mono h2
    _ = (n:ℤ) := rhe_intCast _

theorem set_cons_perm :
    ∀ (t : List γ) (k : ℕ) (a b : γ), t[k]? = some b →
      (b :: t.set k a).Perm (a :: t) := by
  intro t
  induction t with
  | nil => intro k a b h; simp at h
  | cons c t' ih =>
    intro k a b h
    cases k with
    | zero =>
      simp at h
      rw [← h]
      simpa using List.Perm.swap a c t'
    | succ m =>
      simp only [List.getElem?_cons_succ] at h
      have step1 : (b :: (c :: t'.set m a)).Perm (c :: (b :: t'.set m a)) :=
        List.Perm.swap c b _
      have step2 : (c :: (b :: t'.set m a)).Perm (c :: (a :: t')) :=
        List.Perm.cons c (ih m a b h)
      have step3 : (c :: (a :: t')).Perm (a :: (c :: t')) := List.Perm.swap a c t'
      exact ((step1.trans step2).trans step3)

theorem swap_sets_perm (l : List γ) :
    ∀ (i j : ℕ) (a b : γ), l[i]? = some a → l[j]? = some b →
      ((l.set i b).set j a).Perm l := by
  induction l with
  | nil => intro i j a b hi _; simp at hi
  | cons x t ih =>
    intro i j a b hi hj
    cases i with
    | zero =>
      simp only [List.getElem?_cons_zero, Option.some.injEq] at hi
      cases j with
      | zero =>
        simp only [List.set_cons_zero]
        rw [hi]
      | succ m =>
        simp only [List.getElem?_cons_succ] at hj
        simp only [List.set_cons_zero, List.set_cons_succ]
        rw [hi]
        exact set_cons_perm t m a b hj
    | succ k =>
      simp only [List.getElem?_cons_succ] at hi
      cases j with
      | zero =>
        simp only [List.getElem?_cons_zero, Option.some.injEq] at hj
        simp only [List.set_cons_succ, List.set_cons_zero]
        rw [hj]
        exact set_cons_perm t k b a hi
      | succ m =>
        simp only [List.getElem?_cons_succ] at hi hj
        simp only [List.set_cons_succ]
        exact List.Perm.cons x (ih k m a b hi hj)

theorem listSwap_perm (l : List γ) (i j : ℕ) : (listSwap l i j).Perm l := by
  unfold listSwap
  cases hi : l[i]? with
  | none => exact List.Perm.refl l
  | some a =>
    cases hj : l[j]? with
    | none => exact List.Perm.refl l
    | some b => exact swap_sets_perm l i j a b hi hj

theorem fyAux_perm : ∀ (i : ℕ) (l : List γ) (g : RandState),
    ((fyAux i l g).1).Perm l := by
  intro i
  induction i with
  | zero => intro l g; exact List.Perm.refl l
  | succ i ih =>
    intro l g
    rw [fyAux]
    exact (ih _ _).trans (listSwap_perm l (i+1) _)

theorem fyAux_state : ∀ (i : ℕ) (l : List γ) (g : RandState),
    (fyAux i l g).2 = stepN i g := by
  intro i
  induction i with
  | zero => intro l g; rfl
  | succ i ih =>
    intro l g
    rw [fyAux, stepN]
    exact ih _ _

theorem pyShuffle_perm (l : List γ) (g : RandState) :
    ((pyShuffle l g).1).Perm l := fyAux_perm _ _ _

theorem pyShuffle_length (l : List γ) (g : RandState) :
    (pyShuffle l g).1.length = l.length := (pyShuffle_perm l g).length_eq

theorem pyShuffle_state (l : List γ) (g : RandState) :
    (pyShuffle l g).2 = stepN (l.length - 1) g := fyAux_state _ _ _

theorem pyIdx_zero (n : ℕ) : pyIdx n 0 = 0 := by
  simp [pyIdx]

theorem pyIdx_len (n : ℕ) : pyIdx n ((n:ℕ) : ℤ) = n := by
  simp [pyIdx]

theorem pyIdx_le (n : ℕ) (i : ℤ) : pyIdx n i ≤ n := by
  unfold pyIdx
  split_ifs
  · omega
  · exact min_le_right _ _

theorem pyIdx_mono {n : ℕ} {a b : ℤ} (h0 : 0 ≤ a) (hab : a ≤ b) :
    pyIdx n a ≤ pyIdx n b := by
  unfold pyIdx
  rw [if_neg (not_lt.2 h0), if_neg (not_lt.2 (le_trans h0 hab))]
  exact min_le_min (by omega) (le_refl n)

theorem pyIdx_of_le {n : ℕ} {a : ℤ} (h0 : 0 ≤ a) (han : a ≤ (n:ℤ)) :
    pyIdx n a = a.toNat := by
  unfold pyIdx
  rw [if_neg (not_lt.2 h0)]
  exact min_eq_left (by omega)

/-- The three slices of the source's lines 155-156 reassemble the whole list
whenever the two cut points are ordered. -/
theorem pySlice_triple (l : List γ) (a b : ℤ) (h0 : 0 ≤ a) (hab : a ≤ b) :
    pySlice l 0 a ++ pySlice l a b ++ pySlice l b ((l.length : ℕ) : ℤ) = l := by
  unfold pySlice
  rw [pyIdx_zero, pyIdx_len, List.drop_zero, List.take_length]
  set a' := pyIdx l.length a with ha'
  set b' := pyIdx l.length b with hb'
  have hab' : a' ≤ b' := pyIdx_mono h0 hab
  have hsum : a' + (b' - a') = b' := by omega
  rw [show (l.take b').drop a' = (l.drop a').take (b' - a') by
      rw [List.take_drop, hsum],
    show l.drop b' = (l.drop a').drop (b' - a') by rw [List.drop_drop, hsum],
    List.append_assoc, List.take_append_drop, List.take_append_drop]

theorem pySlice_len_first (l : List γ) (a : ℤ) (h0 : 0 ≤ a)
    (hle : a ≤ ((l.length : ℕ) : ℤ)) : (pySlice l 0 a).length = a.toNat := by
  unfold pySlice
  rw [pyIdx_zero, List.drop_zero, List.length_take, pyIdx_of_le h0 hle]
  exact min_eq_left (by omega)

theorem pySlice_len_mid (l : List γ) (a b : ℤ) (h0 : 0 ≤ a) (hab : a ≤ b)
    (hbn : b ≤ ((l.length : ℕ) : ℤ)) :
    (pySlice l a b).length = b.toNat - a.toNat := by
  unfold pySlice
  rw [List.length_drop, List.length_take,
    pyIdx_of_le h0 (le_trans hab hbn), pyIdx_of_le (le_trans h0 hab) hbn]
  omega

theorem pySlice_len_last (l : List γ) (b : ℤ) (h0 : 0 ≤ b)
    (hbn : b ≤ ((l.length : ℕ) : ℤ)) :
    (pySlice l b ((l.length : ℕ) : ℤ)).length = l.length - b.toNat := by
  unfold pySlice
  rw [pyIdx_len, List.length_drop, List.length_take, pyIdx_of_le h0 hbn]
  omega

/-- Slicing commutes with mapping. -/
theorem pySlice_map {δ : Type _} (f : γ → δ) (l : List γ) (a b : ℤ) :
    pySlice (l.map f) a b = (pySlice l a b).map f := by
  unfold pySlice
  rw [List.length_map, List.map_drop, List.map_take]

theorem zip_map_fst_snd (l : List (α × β)) :
    (l.map Prod.fst).zip (l.map Prod.snd) = l := by
  rw [List.zip_map']
  simp

/-- The success path of `train_test_split`, written as mapped slices of the
shuffled pair list. -/
theorem splitCore_def (L : List (α × β)) (t v : ℚ) :
    splitCore L t v =
      ((pySlice L 0 (trainCut t L.length)).map Prod.fst,
       (pySlice L (trainCut t L.length) (valCut t v L.length)).map Prod.fst,
       (pySlice L (valCut t v L.length) ((L.length : ℕ) : ℤ)).map Prod.fst,
       (pySlice L 0 (trainCut t L.length)).map Prod.snd,
       (pySlice L (trainCut t L.length) (valCut t v L.length)).map Prod.snd,
       (pySlice L (valCut t v L.length) ((L.length : ℕ) : ℤ)).map Prod.snd) := by
  unfold splitCore
  simp only [List.length_map, pySlice_map]

theorem splitCore_partition {L : List (α × β)} {t v : ℚ}
    (h0 : 0 ≤ trainCut t L.length)
    (hm : trainCut t L.length ≤ valCut t v L.length) :
    (splitCore L t v).1 ++ (splitCore L t v).2.1 ++ (splitCore L t v).2.2.1
        = L.map Prod.fst ∧
    (splitCore L t v).2.2.2.1 ++ (splitCore L t v).2.2.2.2.1
        ++ (splitCore L t v).2.2.2.2.2 = L.map Prod.snd := by
  rw [splitCore_def]
  constructor
  · rw [← List.map_append, ← List.map_append, pySlice_triple L _ _ h0 hm]
  · rw [← List.map_append, ← List.map_append, pySlice_triple L _ _ h0 hm]

theorem splitCore_pairs {L : List (α × β)} {t v : ℚ}
    (h0 : 0 ≤ trainCut t L.length)
    (hm : trainCut t L.length ≤ valCut t v L.length) :
    ((splitCore L t v).1.zip (splitCore L t v).2.2.2.1)
        ++ ((splitCore L t v).2.1.zip (splitCore L t v).2.2.2.2.1)
        ++ ((splitCore L t v).2.2.1.zip (splitCore L t v).2.2.2.2.2) = L := by
  rw [splitCore_def]
  simp only [zip_map_fst_snd]
  exact pySlice_triple L _ _ h0 hm

theorem splitCore_len_pairs {L : List (α × β)} {t v : ℚ} :
    (splitCore L t v).1.length = (splitCore L t v).2.2.2.1.length ∧
    (splitCore L t v).2.1.length = (splitCore L t v).2.2.2.2.1.length ∧
    (splitCore L t v).2.2.1.length = (splitCore L t v).2.2.2.2.2.length := by
  simp [splitCore_def]

theorem splitCore_sizes {L : List (α × β)} {t v : ℚ}
    (h0 : 0 ≤ trainCut t L.length)
    (hm : trainCut t L.length ≤ valCut t v L.length)
    (hn : valCut t v L.length ≤ ((L.length : ℕ) : ℤ)) :
    (splitCore L t v).1.length = (trainCut t L.length).toNat ∧
    (splitCore L t v).2.1.length
        = (valCut t v L.length).toNat - (trainCut t L.length).toNat ∧
    (splitCore L t v).2.2.1.length = L.length - (valCut t v L.length).toNat := by
  rw [splitCore_def]
  simp only [List.length_map]
  exact ⟨pySlice_len_first _ _ h0 (le_trans hm hn),
    pySlice_len_mid _ _ _ h0 hm hn,
    pySlice_len_last _ _ (le_trans h0 hm) hn⟩

theorem splitCore_total {L : List (α × β)} {t v : ℚ} (ht : rnd t = t)
    (h0t : 0 ≤ t) (h0v : 0 ≤ v) :
    splitTotal (splitCore L t v) = L.length := by
  have h0 := trainCut_nonneg h0t L.length
  have hm := cut_mono ht h0t h0v L.length
  have hpart := (splitCore_partition (L := L) h0 hm).1
  have hlen : ((splitCore L t v).1 ++ (splitCore L t v).2.1
      ++ (splitCore L t v).2.2.1).length = L.length := by
    rw [hpart, List.length_map]
  simp only [List.length_append] at hlen
  unfold splitTotal
  omega

/-- Inversion of a successful call of `train_test_split`: the ratios passed
validation, the shuffled list is nonempty, and the result is the sliced
shuffled list. -/
theorem split_ok_inv {X : List α} {y : List β} {t v w : ℚ} {g : RandState}
    {out : List α × List α × List α × List β × List β × List β}
    (hok : (trainTestSplit X y t v w g).1 = Except.ok out) :
    fpAdd (fpAdd t v) w = 1 ∧
      (pyShuffle (X.zip y) (seedState 42)).1 ≠ [] ∧
      out = splitCore (pyShuffle (X.zip y) (seedState 42)).1 t v := by
  simp only [trainTestSplit] at hok
  split_ifs at hok with h1 h2
  push_neg at h1
  have hok2 : splitCore (pyShuffle (X.zip y) (seedState 42)).1 t v = out := by
    simpa using hok
  refine ⟨h1, ?_, hok2.symm⟩
  intro hnil
  rw [List.isEmpty_iff] at h2
  exact h2 hnil

/-- The emitted datasets do not depend on the incoming state of the
process-wide generator (the call reseeds before drawing). -/
theorem split_value_state_free (X : List α) (y : List β) (t v w : ℚ)
    (g g' : RandState) :
    (trainTestSplit X y t v w g).1 = (trainTestSplit X y t v w g').1 := by
  simp only [trainTestSplit]
  split_ifs <;> rfl

/-- After a call whose ratios pass validation, the process-wide generator
state is the reseeded state advanced once per shuffle draw, irrespective of
the state before the call. -/
theorem split_state_eq (X : List α) (y : List β) (t v w : ℚ) (g : RandState)
    (hval : fpAdd (fpAdd t v) w = 1) :
    (trainTestSplit X y t v w g).2 = stepN ((X.zip y).length - 1) (seedState 42) := by
  simp only [trainTestSplit]
  rw [if_neg (fun h => h hval)]
  split_ifs <;> exact pyShuffle_state _ _

/-- The error branch of the validation: the fixed-message `ValueError` is
returned exactly when the float sum of the ratios differs from `1`. -/
theorem split_sum_err (X : List α) (y : List β) (t v w : ℚ) (g : RandState) :
    (trainTestSplit X y t v w g).1 = Except.error sumMsg
      ↔ fpAdd (fpAdd t v) w ≠ 1 := by
  have hmsg : unpackMsg ≠ sumMsg := by decide
  simp only [trainTestSplit]
  split_ifs with h1 h2
  · simp [h1]
  · constructor
    · intro h
      simp at h
      exact absurd h hmsg
    · intro h
      exact absurd h h1
  · constructor
    · intro h
      simp at h
    · intro h
      exact absurd h h1

/-- C1: for every pair of equal-length input sequences and every nonnegative
float ratio triple for which `train_test_split` returns a result, the three
output datasets, concatenated in order train, val, test, contain every
observation of the input exactly once: the concatenation of the three feature
subsets is a permutation of the input features, and likewise for the labels,
so nothing is duplicated or dropped. -/
theorem c1_partition_permutation {α β : Type} (X : List α) (y : List β)
    (t v w : ℚ) (g : RandState) (Xtr Xv Xte : List α) (ytr yv yte : List β)
    (hlen : X.length = y.length) (ht : rnd t = t) (h0t : 0 ≤ t) (h0v : 0 ≤ v)
    (hok : (trainTestSplit X y t v w g).1 = Except.ok (Xtr, Xv, Xte, ytr, yv, yte)) :
    (Xtr ++ Xv ++ Xte).Perm X ∧ (ytr ++ yv ++ yte).Perm y := by
  obtain ⟨hval, hne, hout⟩ := split_ok_inv hok
  set L := (pyShuffle (X.zip y) (seedState 42)).1 with hL
  have hperm : L.Perm (X.zip y) := pyShuffle_perm _ _
  have h0 : 0 ≤ trainCut t L.length := trainCut_nonneg h0t _
  have hm : trainCut t L.length ≤ valCut t v L.length := cut_mono ht h0t h0v _
  have hpart := splitCore_partition (L := L) (t := t) (v := v) h0 hm
  have e1 : Xtr = (splitCore L t v).1 := by rw [← hout]
  have e2 : Xv = (splitCore L t v).2.1 := by rw [← hout]
  have e3 : Xte = (splitCore L t v).2.2.1 := by rw [← hout]
  have e4 : ytr = (splitCore L t v).2.2.2.1 := by rw [← hout]
  have e5 : yv = (splitCore L t v).2.2.2.2.1 := by rw [← hout]
  have e6 : yte = (splitCore L t v).2.2.2.2.2 := by rw [← hout]
  constructor
  · rw [e1, e2, e3, hpart.1]
    have hX : (X.zip y).map Prod.fst = X := List.map_fst_zip X y (le_of_eq hlen)
    rw [← hX]
    exact hperm.map Prod.fst
  · rw [e4, e5, e6, hpart.2]
    have hy : (X.zip y).map Prod.snd = y := List.map_snd_zip X y hlen.ge
    rw [← hy]
    exact hperm.map Prod.snd

/-- Witness for C1 at a concrete input of three observations. -/
theorem c1_witness :
    (([12, 11] ++ ([] : List ℕ) ++ [10]).Perm [10, 11, 12]) ∧
    (([22, 21] ++ ([] : List ℕ) ++ [20]).Perm [20, 21, 22]) :=
  c1_partition_permutation ([10, 11, 12] : List ℕ) ([20, 21, 22] : List ℕ)
    (rnd (mkRat 1 2)) (rnd (mkRat 1 4)) (rnd (mkRat 1 4)) 0
    [12, 11] [] [10] [22, 21] [] [20]
    (by decide) (by decide) (by decide) (by decide) (by decide)

/-- C2: for every valid input for which `train_test_split` returns a result,
feature vector and label that were paired at the same index of the input stay
paired: the three output subsets are pairwise of equal feature/label length,
and the pairs they carry, position by position, are a permutation of the
input pairs. -/
theorem c2_pairing_preserved {α β : Type} (X : List α) (y : List β)
    (t v w : ℚ) (g : RandState) (Xtr Xv Xte : List α) (ytr yv yte : List β)
    (hlen : X.length = y.length) (ht : rnd t = t) (h0t : 0 ≤ t) (h0v : 0 ≤ v)
    (hok : (trainTestSplit X y t v w g).1 = Except.ok (Xtr, Xv, Xte, ytr, yv, yte)) :
    Xtr.length = ytr.length ∧ Xv.length = yv.length ∧ Xte.length = yte.length ∧
    ((Xtr.zip ytr) ++ (Xv.zip yv) ++ (Xte.zip yte)).Perm (X.zip y) := by
  obtain ⟨hval, hne, hout⟩ := split_ok_inv hok
  set L := (pyShuffle (X.zip y) (seedState 42)).1 with hL
  have hperm : L.Perm (X.zip y) := pyShuffle_perm _ _
  have h0 : 0 ≤ trainCut t L.length := trainCut_nonneg h0t _
  have hm : trainCut t L.length ≤ valCut t v L.length := cut_mono ht h0t h0v _
  have e1 : Xtr = (splitCore L t v).1 := by rw [← hout]
  have e2 : Xv = (splitCore L t v).2.1 := by rw [← hout]
  have e3 : Xte = (splitCore L t v).2.2.1 := by rw [← hout]
  have e4 : ytr = (splitCore L t v).2.2.2.1 := by rw [← hout]
  have e5 : yv = (splitCore L t v).2.2.2.2.1 := by rw [← hout]
  have e6 : yte = (splitCore L t v).2.2.2.2.2 := by rw [← hout]
  have hlp := splitCore_len_pairs (L := L) (t := t) (v := v)
  refine ⟨by rw [e1, e4]; exact hlp.1, by rw [e2, e5]; exact hlp.2.1,
    by rw [e3, e6]; exact hlp.2.2, ?_⟩
  rw [e1, e2, e3, e4, e5, e6, splitCore_pairs h0 hm]
  exact hperm

/-- Witness for C2 at a concrete input of three observations. -/
theorem c2_witness :
    (([12, 11] : List ℕ).length = ([22, 21] : List ℕ).length) ∧
    (([] : List ℕ).length = ([] : List ℕ).length) ∧
    (([10] : List ℕ).length = ([20] : List ℕ).length) ∧
    ((([12, 11].zip [22, 21]) ++ (([] : List ℕ).zip ([] : List ℕ))
        ++ ([10].zip [20])).Perm
      (([10, 11, 12] : List ℕ).zip ([20, 21, 22] : List ℕ))) :=
  c2_pairing_preserved ([10, 11, 12] : List ℕ) ([20, 21, 22] : List ℕ)
    (rnd (mkRat 1 2)) (rnd (mkRat 1 4)) (rnd (mkRat 1 4)) 0
    [12, 11] [] [10] [22, 21] [] [20]
    (by decide) (by decide) (by decide) (by decide) (by decide)

/-- C3: two invocations of `train_test_split` with identical inputs return
identical values (all six sequences, same elements in the same order),
whatever the state of the process-wide generator before each call: the call
reseeds the generator with the fixed constant 42, so repeated runs coincide. -/
theorem c3_deterministic {α β : Type} (X : List α) (y : List β) (t v w : ℚ)
    (g g' : RandState) :
    (trainTestSplit X y t v w g).1 = (trainTestSplit X y t v w g').1 :=
  split_value_state_free X y t v w g g'

/-- C4 (amended): for equal-length inputs of length `1 ≤ n ≤ 2^53` and
validated nonnegative float ratios, the subset sizes obey the size law:
`len(train) = round(train_size * n)`, `len(val) = round((train_size+val_size)*n)
- round(train_size*n)`, `len(test) = n - len(train) - len(val)`, and the three
sizes add up to `n` (`round` and the products being Python float
operations). -/
theorem c4_size_law {α β : Type} (X : List α) (y : List β) (t v w : ℚ)
    (g : RandState) (Xtr Xv Xte : List α) (ytr yv yte : List β)
    (hlen : X.length = y.length) (hn : X.length ≤ 2^53)
    (ht : rnd t = t) (h0t : 0 ≤ t) (h0v : 0 ≤ v) (h0w : 0 ≤ w)
    (hok : (trainTestSplit X y t v w g).1 = Except.ok (Xtr, Xv, Xte, ytr, yv, yte)) :
    Xtr.length = (trainCut t X.length).toNat ∧
    Xv.length = (valCut t v X.length).toNat - (trainCut t X.length).toNat ∧
    Xte.length = X.length - Xtr.length - Xv.length ∧
    Xtr.length + Xv.length + Xte.length = X.length := by
  obtain ⟨hval, hne, hout⟩ := split_ok_inv hok
  set L := (pyShuffle (X.zip y) (seedState 42)).1 with hL
  have hLlen : L.length = X.length := by
    rw [hL, pyShuffle_length, List.length_zip, hlen, min_self]
  have h0 : 0 ≤ trainCut t L.length := trainCut_nonneg h0t _
  have hm : trainCut t L.length ≤ valCut t v L.length := cut_mono ht h0t h0v _
  have hvle : valCut t v L.length ≤ ((L.length : ℕ) : ℤ) :=
    valCut_le_n h0t h0v h0w hval L.length (by rw [hLlen]; exact hn)
  have hsz := splitCore_sizes (L := L) (t := t) (v := v) h0 hm hvle
  have e1 : Xtr = (splitCore L t v).1 := by rw [← hout]
  have e2 : Xv = (splitCore L t v).2.1 := by rw [← hout]
  have e3 : Xte = (splitCore L t v).2.2.1 := by rw [← hout]
  rw [← hLlen, e1, e2, e3]
  refine ⟨hsz.1, hsz.2.1, ?_, ?_⟩
  · rw [hsz.1, hsz.2.1, hsz.2.2]
    omega
  · rw [hsz.1, hsz.2.1, hsz.2.2]
    omega

/-- Witness for C4 at ten observations with ratios 0.6, 0.1, 0.3. -/
theorem c4_witness :
    (([1, 3, 9, 5, 7, 4] : List ℕ).length
        = (trainCut (rnd (mkRat 6 10)) ([0,1,2,3,4,5,6,7,8,9] : List ℕ).length).toNat) ∧
    (([6] : List ℕ).length
        = (valCut (rnd (mkRat 6 10)) (rnd (mkRat 1 10))
            ([0,1,2,3,4,5,6,7,8,9] : List ℕ).length).toNat
          - (trainCut (rnd (mkRat 6 10)) ([0,1,2,3,4,5,6,7,8,9] : List ℕ).length).toNat) ∧
    (([8, 0, 2] : List ℕ).length
        = ([0,1,2,3,4,5,6,7,8,9] : List ℕ).length - ([1, 3, 9, 5, 7, 4] : List ℕ).length
          - ([6] : List ℕ).length) ∧
    (([1, 3, 9, 5, 7, 4] : List ℕ).length + ([6] : List ℕ).length
        + ([8, 0, 2] : List ℕ).length = ([0,1,2,3,4,5,6,7,8,9] : List ℕ).length) :=
  c4_size_law ([0,1,2,3,4,5,6,7,8,9] : List ℕ) ([0,1,2,3,4,5,6,7,8,9] : List ℕ)
    (rnd (mkRat 6 10)) (rnd (mkRat 1 10)) (rnd (mkRat 3 10)) 0
    [1, 3, 9, 5, 7, 4] [6] [8, 0, 2] [1, 3, 9, 5, 7, 4] [6] [8, 0, 2]
    (by decide) (by decide) (by decide) (by decide) (by decide) (by decide)
    (by decide)

/-- Refutation of C4 as stated for `n = 0`: with validated ratios and empty
inputs the call does not return sizes at all; unpacking the empty shuffled
list raises a `ValueError`, so the size law cannot hold for all `n ≥ 0`. -/
theorem c4_counterexample :
    (trainTestSplit ([] : List ℕ) ([] : List ℕ) (rnd (mkRat 1 2))
        (rnd (mkRat 1 4)) (rnd (mkRat 1 4)) 0).1 = Except.error unpackMsg := by
  decide

/-- C5 (amended): the proportions `ValueError` is raised exactly when the
float sum of the three ratios differs from `1`, with a fixed message that does
not name the offending sum; ratios whose float sum is `0.99` or `1.01` are
rejected, and `0.6/0.15/0.25` (float sum exactly `1`) succeeds. -/
theorem c5_proportion_check {α β : Type} (X : List α) (y : List β)
    (t v w : ℚ) (g : RandState) :
    ((trainTestSplit X y t v w g).1 = Except.error sumMsg
      ↔ fpAdd (fpAdd t v) w ≠ 1) ∧
    (trainTestSplit ([0] : List ℕ) ([0] : List ℕ) (rnd (mkRat 5 10))
        (rnd (mkRat 25 100)) (rnd (mkRat 24 100)) 0).1 = Except.error sumMsg ∧
    (trainTestSplit ([0] : List ℕ) ([0] : List ℕ) (rnd (mkRat 5 10))
        (rnd (mkRat 25 100)) (rnd (mkRat 26 100)) 0).1 = Except.error sumMsg ∧
    (trainTestSplit ([0] : List ℕ) ([0] : List ℕ) (rnd (mkRat 6 10))
        (rnd (mkRat 15 100)) (rnd (mkRat 25 100)) 0).1
      = Except.ok ([0], [], [], [0], [], []) :=
  ⟨split_sum_err X y t v w g, by decide, by decide, by decide⟩

/-- Refutation of C5 as stated: the message cannot name the offending sum,
because the triples summing to 0.99 and to 1.01 produce the identical fixed
message. -/
theorem c5_counterexample :
    (trainTestSplit ([0] : List ℕ) ([0] : List ℕ) (rnd (mkRat 5 10))
        (rnd (mkRat 25 100)) (rnd (mkRat 24 100)) 0).1
      = (trainTestSplit ([0] : List ℕ) ([0] : List ℕ) (rnd (mkRat 5 10))
        (rnd (mkRat 25 100)) (rnd (mkRat 26 100)) 0).1 ∧
    (trainTestSplit ([0] : List ℕ) ([0] : List ℕ) (rnd (mkRat 5 10))
        (rnd (mkRat 25 100)) (rnd (mkRat 24 100)) 0).1
      = Except.error sumMsg := by
  decide

/-- C6 (amended): `train_test_split` performs no length validation; when the
feature and label sequences have different lengths, `zip` silently truncates
to the shorter length and the call succeeds, the three subsets together
holding `min(len(X), len(y))` observations. -/
theorem c6_amended_no_shape_check {α β : Type} (X : List α) (y : List β)
    (t v w : ℚ) (g : RandState)
    (hval : fpAdd (fpAdd t v) w = 1) (ht : rnd t = t) (h0t : 0 ≤ t) (h0v : 0 ≤ v)
    (hn : 1 ≤ min X.length y.length) :
    ∃ r, (trainTestSplit X y t v w g).1 = Except.ok r ∧
      splitTotal r = min X.length y.length := by
  have hlen : (pyShuffle (X.zip y) (seedState 42)).1.length
      = min X.length y.length := by
    rw [pyShuffle_length, List.length_zip]
  have hne : ¬ (pyShuffle (X.zip y) (seedState 42)).1.isEmpty = true := by
    intro h
    rw [List.isEmpty_iff] at h
    rw [h] at hlen
    simp at hlen
    omega
  refine ⟨splitCore (pyShuffle (X.zip y) (seedState 42)).1 t v, ?_, ?_⟩
  · simp only [trainTestSplit]
    rw [if_neg (fun h => h hval), if_neg hne]
  · rw [splitCore_total ht h0t h0v, hlen]

/-- Refutation of C6 as stated: five features with four labels do not raise
any error; the call succeeds and silently drops the fifth feature. -/
theorem c6_counterexample :
    ((trainTestSplit ([0, 1, 2, 3, 4] : List ℕ) ([0, 1, 2, 3] : List ℕ)
        (rnd (mkRat 1 2)) (rnd (mkRat 1 4)) (rnd (mkRat 1 4)) 0).1).map splitSizes
      = Except.ok (2, 1, 1) := by
  decide

/-- Witness for the amended C6 at a concrete mismatched input. -/
theorem c6_amended_witness :
    (1 ≤ min ([10, 11, 12] : List ℕ).length ([20, 21] : List ℕ).length) ∧
    (∃ r, (trainTestSplit ([10, 11, 12] : List ℕ) ([20, 21] : List ℕ)
        (rnd (mkRat 1 2)) (rnd (mkRat 1 4)) (rnd (mkRat 1 4)) 3).1 = Except.ok r ∧
      splitTotal r = min ([10, 11, 12] : List ℕ).length ([20, 21] : List ℕ).length) :=
  ⟨by decide, c6_amended_no_shape_check ([10, 11, 12] : List ℕ) ([20, 21] : List ℕ) (rnd (mkRat 1 2))
    (rnd (mkRat 1 4)) (rnd (mkRat 1 4)) 3
    (by decide) (by decide) (by decide) (by decide) (by decide)⟩

/-- C7 (amended): the returned datasets are a pure function of the inputs
(independent of the process-wide generator state before the call), but the
call is not free of side effects: it overwrites the process-wide generator
state with the reseeded state advanced once per shuffle draw, a value
independent of the prior state. -/
theorem c7_amended_state {α β : Type} (X : List α) (y : List β) (t v w : ℚ)
    (g g' : RandState) (hval : fpAdd (fpAdd t v) w = 1) :
    (trainTestSplit X y t v w g).1 = (trainTestSplit X y t v w g').1 ∧
    (trainTestSplit X y t v w g).2 = stepN ((X.zip y).length - 1) (seedState 42) :=
  ⟨split_value_state_free X y t v w g g', split_state_eq X y t v w g hval⟩

/-- Refutation of C7 as stated: a call does not leave the process-wide
generator state unchanged. -/
theorem c7_counterexample :
    (trainTestSplit ([0, 1] : List ℕ) ([0, 1] : List ℕ) (rnd (mkRat 1 2))
        (rnd (mkRat 1 4)) (rnd (mkRat 1 4)) 999).2 ≠ 999 := by
  decide

/-- Witness for the amended C7 at a concrete input. -/
theorem c7_amended_witness :
    ((trainTestSplit ([0, 1] : List ℕ) ([0, 1] : List ℕ) (rnd (mkRat 1 2))
        (rnd (mkRat 1 4)) (rnd (mkRat 1 4)) 5).1
      = (trainTestSplit ([0, 1] : List ℕ) ([0, 1] : List ℕ) (rnd (mkRat 1 2))
        (rnd (mkRat 1 4)) (rnd (mkRat 1 4)) 77).1) ∧
    ((trainTestSplit ([0, 1] : List ℕ) ([0, 1] : List ℕ) (rnd (mkRat 1 2))
        (rnd (mkRat 1 4)) (rnd (mkRat 1 4)) 5).2
      = stepN ((([0, 1] : List ℕ).zip ([0, 1] : List ℕ)).length - 1) (seedState 42)) :=
  c7_amended_state ([0, 1] : List ℕ) ([0, 1] : List ℕ) (rnd (mkRat 1 2))
    (rnd (mkRat 1 4)) (rnd (mkRat 1 4)) 5 77 (by decide)

/-- C8: the label summary pairs each distinct label with its index in the
enumeration of distinct labels, not with its occurrence count: on a sequence
of three equal labels it reports the pair `("a", 0)`, so the reported counts
sum to 0 although the sequence has length 3. -/
theorem c8_label_summary_eval :
    dispLabelCardinality (["a", "a", "a"] : List String) = [("a", 0)] ∧
    reportedTotal (["a", "a", "a"] : List String) = 0 ∧
    (["a", "a", "a"] : List String).length = 3 := by
  decide

/-- C9: with ten observations and ratios 0.6, 0.1, 0.3 the validation accepts
the float sum (it is exactly 1), the cuts are `train_cut = 6` and
`val_cut = 7`, and the returned subsets have sizes 6, 1 and 3. -/
theorem c9_concrete_ten :
    trainCut (rnd (mkRat 6 10)) 10 = 6 ∧
    valCut (rnd (mkRat 6 10)) (rnd (mkRat 1 10)) 10 = 7 ∧
    ((trainTestSplit ([0,1,2,3,4,5,6,7,8,9] : List ℕ)
        ([0,1,2,3,4,5,6,7,8,9] : List ℕ) (rnd (mkRat 6 10)) (rnd (mkRat 1 10))
        (rnd (mkRat 3 10)) 0).1).map splitSizes = Except.ok (6, 1, 3) := by
  decide

/-- C10 (amended): there is a syntactically valid decimal ratio triple whose
real values sum to 1 and which the proportions check rejects, for instance
`(0.2, 0.7, 0.1)`, whose float sum is `0.9999999999999999`; the default
arguments `(0.7, 0.1, 0.2)`, however, pass: `(0.7 + 0.1) + 0.2` rounds to
exactly `1.0` under round-half-to-even. -/
theorem c10_amended_reject :
    fpAdd (fpAdd (rnd (mkRat 2 10)) (rnd (mkRat 7 10))) (rnd (mkRat 1 10)) ≠ 1 ∧
    (trainTestSplit ([0] : List ℕ) ([0] : List ℕ) (rnd (mkRat 2 10))
        (rnd (mkRat 7 10)) (rnd (mkRat 1 10)) 0).1 = Except.error sumMsg ∧
    fpAdd (fpAdd (rnd (mkRat 7 10)) (rnd (mkRat 1 10))) (rnd (mkRat 2 10)) = 1 := by
  decide

/-- Refutation of C10 as stated: the default ratios 0.7, 0.1, 0.2 do not raise
the proportions error; their float sum is exactly 1 and the call succeeds. -/
theorem c10_counterexample :
    fpAdd (fpAdd (rnd (mkRat 7 10)) (rnd (mkRat 1 10))) (rnd (mkRat 2 10)) = 1 ∧
    ((trainTestSplit ([0] : List ℕ) ([0] : List ℕ) (rnd (mkRat 7 10))
        (rnd (mkRat 1 10)) (rnd (mkRat 2 10)) 0).1).map splitSizes
      = Except.ok (1, 0, 0) := by
  decide

end IrisModule
